import Mathlib

/-!
Verification of the Kyber-768 KEM core (`kyber768_complete.py`).

The Python source is shallowly embedded: polynomials are `List Int`
(coefficients as unbounded integers, exactly as Python ints), byte strings
are `List Nat`, operations that can raise `IndexError` return `Option`,
and the unbounded rejection-sampling loop takes an explicit fuel argument
(`none` models the still-running loop).  The external collaborators
(SHAKE-128 XOF, SHA-256, and the NTT ring-multiplication module, which is
not part of the sources) are modelled as explicit function parameters or,
for ring multiplication, from the interface contract of the specification.

The Python builtin `round` is round-half-to-even on IEEE doubles.  For the values
occurring here (`(2**d / Q) * x` with |x| <= 3328, d in {4,10}, and
`(Q / 2**d) * y`, where `Q / 2**d` is exactly representable), the double
computation rounds identically to exact rational round-half-to-even:
exact ties never arise in `compress` (q odd) and `decompress` is exact,
while in `compress` the distance of the exact value from any half-integer
is at least `1/(2q)`, far above the floating-point error.  So `rndHE`
below (exact round-half-to-even of `a / b`) is a faithful model.
-/

namespace Kyber768

/-- Kyber-768 parameters (source lines 12-18). -/
def N : Nat := 256

/-- Prime modulus. -/
def Q : Nat := 3329

/-- Module rank. -/
def K : Nat := 3

/-- Secret distribution parameter. -/
def ETA1 : Nat := 2

/-- Error distribution parameter. -/
def ETA2 : Nat := 2

/-- Ciphertext compression bits for u. -/
def DU : Nat := 10

/-- Ciphertext compression bits for v. -/
def DV : Nat := 4

/-- Source lines 20-25, `mod_q`: `x = x % Q; if x > Q // 2: x -= Q`.
Python `%` on ints agrees with Lean `Int.emod` for a positive modulus. -/
def mod_q (x : Int) : Int :=
  let r := x % (Q : Int)
  if r > (Q : Int) / 2 then r - (Q : Int) else r

/-- Bit `t` of the randomness buffer, LSB-first within each byte:
`(randomness[t // 8] >> (t % 8)) & 1`. -/
def bitAt (randomness : List Nat) (t : Nat) : Nat :=
  (randomness.getD (t / 8) 0 >>> (t % 8)) &&& 1

/-- Source lines 27-54, `cbd_sample`: centered binomial sampling; for each
of the 256 coefficients, sum `eta` bits minus the next `eta` bits, passed
through `mod_q`. -/
def cbd_sample (eta : Nat) (randomness : List Nat) : List Int :=
  (List.range N).map (fun i =>
    let a : Nat := ((List.range eta).map (fun j => bitAt randomness (2 * i * eta + j))).sum
    let b : Nat := ((List.range eta).map (fun j => bitAt randomness (2 * i * eta + eta + j))).sum
    mod_q ((a : Int) - (b : Int)))

/-- The 3-byte group number `ctr` of the XOF stream:
`xof.digest(3*(ctr+1))[3*ctr : 3*(ctr+1)]`. -/
def xofSlice (xof : List Nat → Nat → List Nat) (input : List Nat) (ctr : Nat) : List Nat :=
  ((xof input (3 * (ctr + 1))).drop (3 * ctr)).take 3

/-- First 12-bit little-endian value of a 3-byte group:
`d1 = (b[0] | (b[1] << 8)) & 0xFFF`. -/
def usD1 (tb : List Nat) : Nat :=
  (tb.getD 0 0 ||| (tb.getD 1 0 <<< 8)) &&& 0xFFF

/-- Second 12-bit little-endian value of a 3-byte group:
`d2 = ((b[1] >> 4) | (b[2] << 4)) & 0xFFF`. -/
def usD2 (tb : List Nat) : Nat :=
  ((tb.getD 1 0 >>> 4) ||| (tb.getD 2 0 <<< 4)) &&& 0xFFF

/-- Rejection of the first value: `if d1 < Q: poly.append(d1)`. -/
def usPush1 (poly : List Int) (d1 : Nat) : List Int :=
  if d1 < Q then poly ++ [(d1 : Int)] else poly

/-- Rejection of the second value:
`if len(poly) < N and d2 < Q: poly.append(d2)`. -/
def usPush2 (poly : List Int) (d2 : Nat) : List Int :=
  if poly.length < N ∧ d2 < Q then poly ++ [(d2 : Int)] else poly

/-- The `while len(poly) < N` rejection-sampling loop of `uniform_sample`
(source lines 73-90), with explicit fuel; `none` means the loop has not
finished within `fuel` iterations. -/
def usLoop (xof : List Nat → Nat → List Nat) (input : List Nat) :
    Nat → List Int → Nat → Option (List Int)
  | 0, _, _ => none
  | fuel + 1, poly, ctr =>
    if N ≤ poly.length then some (poly.take N)
    else if (xofSlice xof input ctr).length < 3 then some (poly.take N)
    else
      usLoop xof input fuel
        (usPush2 (usPush1 poly (usD1 (xofSlice xof input ctr))) (usD2 (xofSlice xof input ctr)))
        (ctr + 1)

/-- Source lines 56-90, `uniform_sample`: feed `seed || i || j` to the XOF
and rejection-sample 12-bit little-endian values below q. -/
def uniform_sample (xof : List Nat → Nat → List Nat) (fuel : Nat)
    (seed : List Nat) (i j : Nat) : Option (List Int) :=
  usLoop xof (seed ++ [i, j]) fuel [] 0

/-- Source lines 92-94, `poly_add`: `[mod_q(a[i] + b[i]) for i in range(N)]`.
Indexing raises `IndexError` (here: `none`) when either input has fewer
than `N` entries; entries beyond the first `N` are silently ignored. -/
def poly_add (a b : List Int) : Option (List Int) :=
  if N ≤ a.length ∧ N ≤ b.length then
    some (List.zipWith (fun x y => mod_q (x + y)) (a.take N) (b.take N))
  else none

/-- Source lines 96-98, `poly_sub`. -/
def poly_sub (a b : List Int) : Option (List Int) :=
  if N ≤ a.length ∧ N ≤ b.length then
    some (List.zipWith (fun x y => mod_q (x - y)) (a.take N) (b.take N))
  else none

/-- Sequence a list of optional values (used for the list comprehensions /
accumulation loops of the vector and matrix operations). -/
def seqOpt {α : Type} : List (Option α) → Option (List α)
  | [] => some []
  | none :: _ => none
  | some x :: rest => (seqOpt rest).map (fun xs => x :: xs)

/-- Modelled from the spec: `X^i * b` in Z_q[X]/(X^256+1) — the negacyclic
rotation by i places (0 ≤ i < 256).  The ring-multiplication module
`kyber_ntt_final_working` is not among the sources; the spec (section 6)
requires an exact product in Z_q[X]/(X^256+1) returning field elements. -/
def rotNeg (i : Nat) (b : List Int) : List Int :=
  ((b.drop (N - i)).map (fun c => -c)) ++ b.take (N - i)

/-- Modelled from the spec: pad or cut a coefficient list to exactly 256
entries, so the product is computed on well-shaped ring elements. -/
def norm256 (p : List Int) : List Int :=
  (p ++ List.replicate N 0).take N

/-- Modelled from the spec: schoolbook accumulation
`acc + sum_i a_i * (X^i * b)`, reduced into [0, q) at the end. -/
def mulGo (b : List Int) : List Int → Nat → List Int → List Int
  | acc, _, [] => acc.map (fun c => c % (Q : Int))
  | acc, i, x :: rest =>
    mulGo b (if x = 0 then acc else List.zipWith (fun u v => u + x * v) acc (rotNeg i b))
      (i + 1) rest

/-- Modelled from the spec: `ringMultiply(a, b)` — the exact negacyclic
product in Z_q[X]/(X^256+1) with canonical coefficients in [0, q),
standing in for the external NTT multiplication engine. -/
def poly_mul (a b : List Int) : List Int :=
  mulGo (norm256 b) (List.replicate N 0) 0 (norm256 a)

/-- Source lines 100-102, `vector_add`: `[poly_add(v1[i], v2[i]) for i in range(len(v1))]`. -/
def vector_add (v1 v2 : List (List Int)) : Option (List (List Int)) :=
  seqOpt ((List.range v1.length).map (fun i => poly_add (v1.getD i []) (v2.getD i [])))

/-- The inner accumulation loop shared by `matrix_vector_mul` and
`vector_dot`: `result = poly_add(result, product)` over a list of products. -/
def accPolys : List (List Int) → List Int → Option (List Int)
  | [], acc => some acc
  | p :: rest, acc =>
    match poly_add acc p with
    | some acc2 => accPolys rest acc2
    | none => none

/-- Source lines 104-126, `matrix_vector_mul`: row i accumulates
`poly_mul(A[i][j], v[j])` over j, starting from the zero polynomial. -/
def matrix_vector_mul (A : List (List (List Int))) (v : List (List Int)) :
    Option (List (List Int)) :=
  seqOpt ((List.range v.length).map (fun i =>
    accPolys ((List.range v.length).map (fun j =>
      poly_mul ((A.getD i []).getD j []) (v.getD j []))) (List.replicate N 0)))

/-- Source lines 128-134, `vector_dot`. -/
def vector_dot (v1 v2 : List (List Int)) : Option (List Int) :=
  accPolys ((List.range v1.length).map (fun i =>
    poly_mul (v1.getD i []) (v2.getD i []))) (List.replicate N 0)

/-- Exact round-half-to-even of the rational `a / b` (`b > 0`), the value
the Python builtin `round` produces here (see the header note on floating point). -/
def rndHE (a : Int) (b : Int) : Int :=
  let q := a / b
  let r := a % b
  if 2 * r < b then q
  else if b < 2 * r then q + 1
  else if q % 2 = 0 then q else q + 1

/-- Source lines 136-147, `compress`: `round((2**d / Q) * x) % (2**d)`
for each coefficient (a plain comprehension: any input length is accepted
and the output has the same length). -/
def compress (poly : List Int) (d : Nat) : List Int :=
  poly.map (fun x => rndHE ((2 : Int) ^ d * x) (Q : Int) % (2 : Int) ^ d)

/-- Source lines 149-160, `decompress`: `round((Q / 2**d) * x)`. -/
def decompress (poly : List Int) (d : Nat) : List Int :=
  poly.map (fun x => rndHE ((Q : Int) * x) ((2 : Int) ^ d))

/-- Source lines 162-177, `encode_message`: each bit of the message,
LSB-first within each byte, becomes a coefficient `bit * (Q // 2)`. -/
def encode_message (msg : List Nat) : List Int :=
  msg.flatMap (fun byte =>
    (List.range 8).map (fun i => (((byte >>> i) &&& 1 : Nat) : Int) * ((Q : Int) / 2)))

/-- The per-coefficient bit test of `decode_message`:
`1 if abs(c - Q // 2) < Q // 4 else 0`. -/
def decodeBit (c : Int) : Nat :=
  if (c - (Q : Int) / 2).natAbs < Q / 4 then 1 else 0

/-- One byte of `decode_message`: `byte |= bit << j` over `j in range(8)`,
reading coefficients `8*k .. 8*k+7`. -/
def decByte (p : List Int) (k : Nat) : Nat :=
  (List.range 8).foldl (fun byte j => byte ||| (decodeBit (p.getD (8 * k + j) 0) <<< j)) 0

/-- Source lines 179-196, `decode_message`: packs 256 bits into 32 bytes;
indexing `poly[i + j]` raises (`none`) when the input has fewer than `N`
entries, and silently ignores entries beyond the first `N`. -/
def decode_message (p : List Int) : Option (List Nat) :=
  if N ≤ p.length then some ((List.range (N / 8)).map (fun k => decByte p k))
  else none

/-- Public key record with fields rho and t (source line 239). -/
structure PubKey where
  rho : List Nat
  t : List (List Int)
deriving DecidableEq, Repr

/-- Secret key record with field s (source line 240). -/
structure SecKey where
  s : List (List Int)
deriving DecidableEq, Repr

/-- Ciphertext record with fields u and v (source line 306). -/
structure Ciphertext where
  u : List (List Int)
  v : List Int
deriving DecidableEq, Repr

/-- The matrix-A construction of `keygen` (source lines 212-219):
`A[i][j] = uniform_sample(rho, i, j)` for i, j in range(K). -/
def genA_keygen (xof : List Nat → Nat → List Nat) (fuel : Nat) (rho : List Nat) :
    Option (List (List (List Int))) :=
  seqOpt ((List.range K).map (fun i =>
    seqOpt ((List.range K).map (fun j => uniform_sample xof fuel rho i j))))

/-- The matrix-A reconstruction of `encapsulate` (source lines 260-268),
textually the same double loop as in `keygen`. -/
def genA_encaps (xof : List Nat → Nat → List Nat) (fuel : Nat) (rho : List Nat) :
    Option (List (List (List Int))) :=
  seqOpt ((List.range K).map (fun i =>
    seqOpt ((List.range K).map (fun j => uniform_sample xof fuel rho i j))))

/-- The `for i in range(K): v.append(cbd_sample(eta, randomness))` loops of
`keygen` and `encapsulate`, with one injected 128-byte buffer per entry. -/
def sampleVec (eta : Nat) (bufs : List (List Nat)) : List (List Int) :=
  (List.range K).map (fun i => cbd_sample eta (bufs.getD i []))

/-- Source lines 201-242, `Kyber768.keygen`, with the injected randomness
made explicit: the seed `rho` and one 128-byte buffer per sampled
polynomial of `s` and `e`.  (The drawn `sigma` is unused by the source.) -/
def keygen (xof : List Nat → Nat → List Nat) (fuel : Nat) (rho : List Nat)
    (randS randE : List (List Nat)) : Option (PubKey × SecKey) :=
  (genA_keygen xof fuel rho).bind (fun A =>
    (matrix_vector_mul A (sampleVec ETA1 randS)).bind (fun As =>
      (vector_add As (sampleVec ETA1 randE)).bind (fun t =>
        some (⟨rho, t⟩, ⟨sampleVec ETA1 randS⟩))))

/-- Source lines 244-308, `Kyber768.encapsulate`, with the injected
randomness made explicit: the 32-byte message `m` and the cbd buffers for
`r`, `e1`, `e2`; `hash` stands for SHA-256. -/
def encapsulate (xof : List Nat → Nat → List Nat) (hash : List Nat → List Nat)
    (fuel : Nat) (pk : PubKey) (m : List Nat)
    (randR randE1 : List (List Nat)) (randE2 : List Nat) :
    Option (Ciphertext × List Nat) :=
  (genA_encaps xof fuel pk.rho).bind (fun A =>
    (matrix_vector_mul A (sampleVec ETA1 randR)).bind (fun Atr =>
      (vector_add Atr (sampleVec ETA2 randE1)).bind (fun u =>
        (vector_dot pk.t (sampleVec ETA1 randR)).bind (fun tdotr =>
          (poly_add tdotr (cbd_sample ETA2 randE2)).bind (fun v1 =>
            (poly_add v1 (encode_message m)).bind (fun v =>
              some (⟨u.map (fun ui => compress ui DU), compress v DV⟩, hash m)))))))

/-- Source lines 310-341, `Kyber768.decapsulate`; `hash` stands for
SHA-256. -/
def decapsulate (hash : List Nat → List Nat) (ct : Ciphertext) (sk : SecKey) :
    Option (List Nat) :=
  (vector_dot sk.s (ct.u.map (fun ui => decompress ui DU))).bind (fun sdotu =>
    (poly_sub (decompress ct.v DV) sdotu).bind (fun mPoly =>
      (decode_message mPoly).bind (fun m => some (hash m))))

set_option maxRecDepth 1000000
set_option maxHeartbeats 8000000

/-! ### Evaluation helpers

`usLoop` consults the XOF only through `xofSlice`; two instantiations with
identical slice streams run identically.  This lets the eight all-zero
matrix entries of the concrete runs below be evaluated once. -/

/-- The all-zero XOF oracle. -/
def xof0 : List Nat → Nat → List Nat := fun _ n => List.replicate n 0

theorem xofSlice_of_replicate (xof : List Nat → Nat → List Nat) (input : List Nat) (c : Nat)
    (h : xof input (3 * (c + 1)) = List.replicate (3 * (c + 1)) 0) :
    xofSlice xof input c = [0, 0, 0] := by
  have h3 : 3 * (c + 1) - 3 * c = 3 := by omega
  simp only [xofSlice, h, List.drop_replicate, List.take_replicate, h3]
  rfl

theorem usLoop_congr (xof1 : List Nat → Nat → List Nat) (in1 : List Nat)
    (xof2 : List Nat → Nat → List Nat) (in2 : List Nat)
    (h : ∀ c, xofSlice xof1 in1 c = xofSlice xof2 in2 c) :
    ∀ fuel poly ctr, usLoop xof1 in1 fuel poly ctr = usLoop xof2 in2 fuel poly ctr := by
  intro fuel
  induction fuel with
  | zero => intro poly ctr; rfl
  | succ f ih =>
    intro poly ctr
    simp only [usLoop, h ctr]
    split
    · rfl
    · split
      · rfl
      · exact ih _ _

theorem slice_xof0 : ∀ (input : List Nat) (c : Nat), xofSlice xof0 input c = [0, 0, 0] :=
  fun input c => xofSlice_of_replicate xof0 input c rfl

/-- The zero polynomial (as produced by sampling the all-zero stream). -/
def zeroP : List Int := List.replicate 256 0

/-- The constant polynomial 265 (matrix entry `A[0][1]` of the concrete run). -/
def e265 : List Int := (265 : Int) :: List.replicate 255 0

/-- The constant polynomial 1. -/
def unitP : List Int := (1 : Int) :: List.replicate 255 0

theorem us_zeroStream : usLoop xof0 [] 130 [] 0 = some zeroP := by decide

theorem sample_zeroStream (xof : List Nat → Nat → List Nat) (seed : List Nat) (i j : Nat)
    (h : ∀ n, xof (seed ++ [i, j]) n = List.replicate n 0) :
    uniform_sample xof 130 seed i j = some zeroP := by
  unfold uniform_sample
  rw [usLoop_congr xof (seed ++ [i, j]) xof0 []
    (fun c => by rw [xofSlice_of_replicate xof (seed ++ [i, j]) c (h (3 * (c + 1))), slice_xof0])]
  exact us_zeroStream

/-! ### Concrete run exhibiting the decoding failure (claim C1)

All injected randomness and the external oracles are fixed concretely.
The XOF sends `rho || 0 || 1` to the byte stream `9, 1, 0, 0, ...` (so
`A[0][1]` has constant coefficient `265`) and every other input to the
all-zero stream; the shared-secret hash is taken to be the identity
(the embedding quantifies over the hash oracle; SHA-256 gives distinct
digests on the two distinct 32-byte messages arising below).
The secret is `s = (0, 1, 0)` and the encapsulation randomness gives
`r = (1, 0, 0)`, `e = e1 = e2 = 0`, message `m = 01 00 ... 00`.
Then `t = (265, 0, 0)`, `u = 0`, `v = -1400 X^0 + ...`, and decapsulate
recovers the polynomial `-1456 X^0 + ...`: every coefficient offset from
`encode_message m` is 209 or 0 modulo q — far inside the q/4 decoding
threshold — yet the recovered message is all zeros, because
`decode_message` tests the centered representative `-1456` rather than
its class `1873 = 1664 + 209` against the band around q/2. -/

/-- The all-zero 32-byte seed used by the concrete run. -/
def cexRho : List Nat := List.replicate 32 0

/-- XOF oracle of the concrete run. -/
def cexXof : List Nat → Nat → List Nat := fun input n =>
  if input = cexRho ++ [0, 1] then (9 :: 1 :: List.replicate n 0).take n
  else List.replicate n 0

/-- Hash oracle of the concrete run (identity on the 32-byte message). -/
def cexHash : List Nat → List Nat := fun m => m

/-- A cbd buffer sampling the zero polynomial. -/
def zeroBuf : List Nat := List.replicate 128 0

/-- A cbd buffer sampling the constant polynomial 1. -/
def unitBuf : List Nat := 1 :: List.replicate 127 0

/-- Message `01 00 ... 00` of the concrete run. -/
def cexM : List Nat := 1 :: List.replicate 31 0

/-- keygen cbd randomness of the concrete run: `s = (0, 1, 0)`. -/
def cexRandS : List (List Nat) := [zeroBuf, unitBuf, zeroBuf]

/-- keygen cbd randomness of the concrete run: `e = 0`. -/
def cexRandE : List (List Nat) := [zeroBuf, zeroBuf, zeroBuf]

/-- encapsulate cbd randomness of the concrete run: `r = (1, 0, 0)`. -/
def cexRandR : List (List Nat) := [unitBuf, zeroBuf, zeroBuf]

/-- encapsulate cbd randomness of the concrete run: `e1 = 0`. -/
def cexRandE1 : List (List Nat) := [zeroBuf, zeroBuf, zeroBuf]

/-- Matrix A of the concrete run. -/
def cexA : List (List (List Int)) :=
  [[zeroP, e265, zeroP], [zeroP, zeroP, zeroP], [zeroP, zeroP, zeroP]]

/-- Public key produced by the concrete run. -/
def cexPk : PubKey := ⟨cexRho, [e265, zeroP, zeroP]⟩

/-- Secret key produced by the concrete run. -/
def cexSk : SecKey := ⟨[zeroP, unitP, zeroP]⟩

/-- Ciphertext produced by the concrete run. -/
def cexCt : Ciphertext := ⟨[zeroP, zeroP, zeroP], (9 : Int) :: List.replicate 255 0⟩

/-- The recovered polynomial `v - dot(s, u)` computed inside decapsulate on the
concrete run. -/
def cexRec : List Int := (-1456 : Int) :: List.replicate 255 0

theorem sample_special : uniform_sample cexXof 130 cexRho 0 1 = some e265 := by decide

theorem cbd_zeroBuf : cbd_sample ETA1 zeroBuf = zeroP := by decide

theorem cbd_unitBuf : cbd_sample ETA1 unitBuf = unitP := by decide

theorem cbd2_zeroBuf : cbd_sample ETA2 zeroBuf = zeroP := cbd_zeroBuf

theorem cbd2_unitBuf : cbd_sample ETA2 unitBuf = unitP := cbd_unitBuf

theorem hGenA : genA_keygen cexXof 130 cexRho = some cexA := by
  have hz : ∀ i j : Nat, ¬(cexRho ++ [i, j] = cexRho ++ [0, 1]) →
      uniform_sample cexXof 130 cexRho i j = some zeroP := fun i j h =>
    sample_zeroStream cexXof cexRho i j (fun n => by simp only [cexXof, if_neg h])
  have h00 := hz 0 0 (by decide)
  have h02 := hz 0 2 (by decide)
  have h10 := hz 1 0 (by decide)
  have h11 := hz 1 1 (by decide)
  have h12 := hz 1 2 (by decide)
  have h20 := hz 2 0 (by decide)
  have h21 := hz 2 1 (by decide)
  have h22 := hz 2 2 (by decide)
  simp only [genA_keygen, show List.range K = [0, 1, 2] from rfl, List.map_cons, List.map_nil,
    h00, sample_special, h02, h10, h11, h12, h20, h21, h22]
  rfl

theorem hGenAe : genA_encaps cexXof 130 cexRho = some cexA := hGenA

theorem hKeygen : keygen cexXof 130 cexRho cexRandS cexRandE = some (cexPk, cexSk) := by
  have gs0 : cexRandS.getD 0 [] = zeroBuf := rfl
  have gs1 : cexRandS.getD 1 [] = unitBuf := rfl
  have gs2 : cexRandS.getD 2 [] = zeroBuf := rfl
  have ge0 : cexRandE.getD 0 [] = zeroBuf := rfl
  have ge1 : cexRandE.getD 1 [] = zeroBuf := rfl
  have ge2 : cexRandE.getD 2 [] = zeroBuf := rfl
  simp only [keygen, hGenA, Option.some_bind, sampleVec,
    show List.range K = [0, 1, 2] from rfl, List.map_cons, List.map_nil,
    gs0, gs1, gs2, ge0, ge1, ge2, cbd_zeroBuf, cbd_unitBuf]
  decide

theorem hEncaps :
    encapsulate cexXof cexHash 130 cexPk cexM cexRandR cexRandE1 zeroBuf =
      some (cexCt, cexM) := by
  have gr0 : cexRandR.getD 0 [] = unitBuf := rfl
  have gr1 : cexRandR.getD 1 [] = zeroBuf := rfl
  have gr2 : cexRandR.getD 2 [] = zeroBuf := rfl
  have g10 : cexRandE1.getD 0 [] = zeroBuf := rfl
  have g11 : cexRandE1.getD 1 [] = zeroBuf := rfl
  have g12 : cexRandE1.getD 2 [] = zeroBuf := rfl
  have hrho : cexPk.rho = cexRho := rfl
  simp only [encapsulate, hrho, hGenAe, Option.some_bind, sampleVec,
    show List.range K = [0, 1, 2] from rfl, List.map_cons,
    List.map_nil, gr0, gr1, gr2, g10, g11, g12, cbd_zeroBuf, cbd_unitBuf, cbd2_zeroBuf,
    cbd2_unitBuf]
  decide

theorem hDecaps : decapsulate cexHash cexCt cexSk = some (List.replicate 32 0) := by decide

theorem hRec :
    vector_dot cexSk.s (cexCt.u.map (fun ui => decompress ui DU)) = some zeroP ∧
      poly_sub (decompress cexCt.v DV) zeroP = some cexRec := by decide

theorem hOff :
    ((List.range N).all (fun i =>
      4 * (mod_q (cexRec.getD i 0 - (encode_message cexM).getD i 0)).natAbs < Q)) = true := by
  decide


/-! ### Generic list-indexing helpers -/

theorem getD_append_lt {α : Type} :
    ∀ (l1 l2 : List α) (i : Nat) (d : α), i < l1.length → (l1 ++ l2).getD i d = l1.getD i d := by
  intro l1
  induction l1 with
  | nil => intro l2 i d h; simp at h
  | cons a t ih =>
    intro l2 i d h
    cases i with
    | zero => rfl
    | succ n =>
      simp only [List.cons_append, List.getD_cons_succ]
      exact ih l2 n d (by simpa using h)

theorem getD_append_ge {α : Type} :
    ∀ (l1 l2 : List α) (i : Nat) (d : α), l1.length ≤ i →
      (l1 ++ l2).getD i d = l2.getD (i - l1.length) d := by
  intro l1
  induction l1 with
  | nil => intro l2 i d _; rfl
  | cons a t ih =>
    intro l2 i d h
    cases i with
    | zero => simp at h
    | succ n =>
      simp only [List.cons_append, List.getD_cons_succ, List.length_cons]
      rw [ih l2 n d (by simpa using h)]
      congr 1
      omega

theorem getD_rmap {α : Type} (f : Nat → α) :
    ∀ (n i : Nat) (d : α), i < n → ((List.range n).map f).getD i d = f i := by
  intro n
  induction n with
  | zero => intro i d h; simp at h
  | succ m ih =>
    intro i d h
    rw [List.range_succ, List.map_append]
    rcases Nat.lt_or_ge i m with hlt | hge
    · rw [getD_append_lt _ _ _ _ (by simpa using hlt)]
      exact ih i d hlt
    · have hi : i = m := by omega
      subst hi
      rw [getD_append_ge _ _ _ _ (by simp)]
      simp

theorem getD_take_lt {α : Type} :
    ∀ (l : List α) (n i : Nat) (d : α), i < n → (l.take n).getD i d = l.getD i d := by
  intro l
  induction l with
  | nil => intro n i d _; simp
  | cons a t ih =>
    intro n i d h
    cases n with
    | zero => omega
    | succ m =>
      cases i with
      | zero => rfl
      | succ k =>
        simp only [List.take_succ_cons, List.getD_cons_succ]
        exact ih m k d (by omega)

theorem ext_getD {α : Type} :
    ∀ (l1 l2 : List α) (d : α), l1.length = l2.length →
      (∀ i, i < l1.length → l1.getD i d = l2.getD i d) → l1 = l2 := by
  intro l1
  induction l1 with
  | nil =>
    intro l2 d hlen _
    cases l2 with
    | nil => rfl
    | cons b t => simp at hlen
  | cons a t ih =>
    intro l2 d hlen h
    cases l2 with
    | nil => simp at hlen
    | cons b u =>
      have h0 := h 0 (by simp)
      simp only [List.getD_cons_zero] at h0
      subst h0
      have := ih u d (by simpa using hlen) (fun i hi => by
        have := h (i + 1) (by simpa using Nat.succ_lt_succ hi)
        simpa using this)
      rw [this]

theorem zipWith_mem {α β γ : Type} (f : α → β → γ) :
    ∀ (l1 : List α) (l2 : List β) (c : γ), c ∈ List.zipWith f l1 l2 → ∃ x y, c = f x y := by
  intro l1
  induction l1 with
  | nil => intro l2 c h; simp at h
  | cons a t ih =>
    intro l2 c h
    cases l2 with
    | nil => simp at h
    | cons b u =>
      simp only [List.zipWith_cons_cons, List.mem_cons] at h
      rcases h with h | h
      · exact ⟨a, b, h⟩
      · exact ih u c h

/-! ### Facts about `mod_q` -/

theorem mod_q_range (x : Int) : -1664 ≤ mod_q x ∧ mod_q x ≤ 1664 := by
  have h1 : 0 ≤ x % (3329 : Int) := Int.emod_nonneg x (by decide)
  have h2 : x % (3329 : Int) < 3329 := Int.emod_lt_of_pos x (by decide)
  simp only [mod_q, show (Q : Int) = 3329 from rfl]
  split <;> omega

theorem mod_q_congr (x : Int) : mod_q x % (Q : Int) = x % (Q : Int) := by
  have h1 : 0 ≤ x % (3329 : Int) := Int.emod_nonneg x (by decide)
  have h2 : x % (3329 : Int) < 3329 := Int.emod_lt_of_pos x (by decide)
  simp only [mod_q, show (Q : Int) = 3329 from rfl]
  split <;> omega

theorem mod_q_small (z : Int) (h1 : -2 ≤ z) (h2 : z ≤ 2) : mod_q z = z := by
  simp only [mod_q, show (Q : Int) = 3329 from rfl]
  split <;> omega

/-! ### Claim C1 -/

/-- Claim C1 (code-bug evidence): a complete concrete
keygen/encapsulate/decapsulate run (oracles and injected randomness fixed
as in `cexXof`, `cexHash`, `cexRandS`, ...) in which every coefficient
offset, modulo q, of the recovered polynomial `v - dot(s, u)` from
`encode_message m` has magnitude 209 or 0 — strictly inside the q/4
decoding threshold — and yet decapsulate returns the shared secret of the
all-zero message instead of the encapsulated one: the round-trip
correctness stated by the spec fails on the code because `decode_message`
tests the centered representative produced by `poly_sub`/`mod_q` instead
of the canonical one. -/
theorem C1_roundtrip_bug :
    keygen cexXof 130 cexRho cexRandS cexRandE = some (cexPk, cexSk) ∧
    encapsulate cexXof cexHash 130 cexPk cexM cexRandR cexRandE1 zeroBuf =
      some (cexCt, cexM) ∧
    (vector_dot cexSk.s (cexCt.u.map (fun ui => decompress ui DU)) = some zeroP ∧
      poly_sub (decompress cexCt.v DV) zeroP = some cexRec) ∧
    ((List.range N).all (fun i =>
      4 * (mod_q (cexRec.getD i 0 - (encode_message cexM).getD i 0)).natAbs < Q)) = true ∧
    decapsulate cexHash cexCt cexSk = some (List.replicate 32 0) ∧
    List.replicate 32 0 ≠ cexM :=
  ⟨hKeygen, hEncaps, hRec, hOff, hDecaps, by decide⟩

/-! ### Claim C2 -/

/-- Claim C2 counterexample: `mod_q 2000 = -1329`, which is not in the
canonical range [0, q) — `mod_q` returns centered representatives. -/
theorem C2_cex : mod_q 2000 = -1329 ∧ ¬(0 ≤ mod_q 2000 ∧ mod_q 2000 < (Q : Int)) := by
  decide

/-- Claim C2 (amended): `mod_q` returns the centered representative — a
value in [-1664, 1664] congruent mod q to its argument — and consequently
every coefficient stored by `poly_add` lies in [-1664, 1664] (not in
[0, q) as claimed). -/
theorem C2_centered :
    (∀ x : Int, (-1664 ≤ mod_q x ∧ mod_q x ≤ 1664) ∧ mod_q x % (Q : Int) = x % (Q : Int)) ∧
    (∀ a b out : List Int, poly_add a b = some out → ∀ c ∈ out, -1664 ≤ c ∧ c ≤ 1664) := by
  constructor
  · exact fun x => ⟨mod_q_range x, mod_q_congr x⟩
  · intro a b out h c hc
    unfold poly_add at h
    split at h
    · rw [Option.some_inj] at h
      subst h
      obtain ⟨x, y, hxy⟩ := zipWith_mem _ _ _ _ hc
      subst hxy
      exact mod_q_range (x + y)
    · exact absurd h (by simp)

/-- Witness for C2: the amended theorem applied at `x = 2000` and at a
coefficient of `poly_add zeroP zeroP`. -/
theorem C2_centered_w :
    (-1664 ≤ mod_q 2000 ∧ mod_q 2000 ≤ 1664) ∧ (-1664 ≤ (0 : Int) ∧ (0 : Int) ≤ 1664) :=
  ⟨(C2_centered.1 2000).1,
    C2_centered.2 zeroP zeroP zeroP (by decide) 0 (by decide)⟩

/-! ### Claim C5 -/

/-- Claim C5: `uniform_sample` is a pure deterministic function of the
oracle, the fuel, the seed and the indices, and the matrix built in
`keygen` coincides entry for entry with the matrix rebuilt in
`encapsulate` from the same rho. -/
theorem C5_determinism :
    ∀ (xof : List Nat → Nat → List Nat) (fuel : Nat) (seed : List Nat) (i j : Nat),
      uniform_sample xof fuel seed i j = uniform_sample xof fuel seed i j ∧
      ∀ rho : List Nat, genA_keygen xof fuel rho = genA_encaps xof fuel rho :=
  fun _ _ _ _ _ => ⟨rfl, fun _ => rfl⟩

/-! ### Claim C7 -/

/-- Claim C7 counterexample: the cbd buffer starting with byte 12
(bits 0011 at positions 0-3, LSB-first) yields first coefficient
`0 - 2 = -2`, which is not in the canonical range [0, q). -/
theorem C7_cex :
    (cbd_sample ETA1 (12 :: List.replicate 127 0)).getD 0 0 = -2 ∧
    ¬(0 ≤ (cbd_sample ETA1 (12 :: List.replicate 127 0)).getD 0 0) := by decide

theorem bitAt_le_one (rand : List Nat) (t : Nat) : bitAt rand t ≤ 1 :=
  Nat.and_le_right

/-- Claim C7 (amended): for eta = 2 and a 128-byte buffer,
`cbd_sample` returns 256 coefficients; coefficient i equals the sum of the
bits at positions 4i and 4i+1 minus the sum of the bits at positions
4i+2 and 4i+3 (LSB-first within each byte), and therefore lies in the
centered range [-2, 2] — not in the canonical range [0, q) as claimed. -/
theorem C7_cbd :
    ∀ rand : List Nat, rand.length = 128 →
      (cbd_sample ETA1 rand).length = N ∧
      ∀ i : Nat, i < N →
        (cbd_sample ETA1 rand).getD i 0 =
            ((bitAt rand (4 * i) : Int) + (bitAt rand (4 * i + 1) : Int)) -
              ((bitAt rand (4 * i + 2) : Int) + (bitAt rand (4 * i + 3) : Int)) ∧
          -2 ≤ (cbd_sample ETA1 rand).getD i 0 ∧ (cbd_sample ETA1 rand).getD i 0 ≤ 2 := by
  intro rand _
  constructor
  · simp [cbd_sample]
  · intro i hi
    have hg := getD_rmap (fun i =>
      let a : Nat := ((List.range ETA1).map (fun j => bitAt rand (2 * i * ETA1 + j))).sum
      let b : Nat := ((List.range ETA1).map (fun j => bitAt rand (2 * i * ETA1 + ETA1 + j))).sum
      mod_q ((a : Int) - (b : Int))) N i 0 hi
    have hcb : (cbd_sample ETA1 rand).getD i 0 =
        mod_q ((((bitAt rand (2 * i * ETA1 + 0) + (bitAt rand (2 * i * ETA1 + 1) + 0) : Nat)) : Int) -
          (((bitAt rand (2 * i * ETA1 + ETA1 + 0) + (bitAt rand (2 * i * ETA1 + ETA1 + 1) + 0) : Nat)) : Int)) := by
      rw [cbd_sample, hg]
      simp only [show (List.range ETA1) = [0, 1] from rfl, List.map_cons, List.map_nil,
        List.sum_cons, List.sum_nil]
    have e0 : 2 * i * ETA1 + 0 = 4 * i := by simp [ETA1]; ring
    have e1 : 2 * i * ETA1 + 1 = 4 * i + 1 := by simp [ETA1]; ring
    have e2 : 2 * i * ETA1 + ETA1 + 0 = 4 * i + 2 := by simp [ETA1]; ring
    have e3 : 2 * i * ETA1 + ETA1 + 1 = 4 * i + 3 := by simp [ETA1]; ring
    rw [e0, e1, e2, e3] at hcb
    have b0 := bitAt_le_one rand (4 * i)
    have b1 := bitAt_le_one rand (4 * i + 1)
    have b2 := bitAt_le_one rand (4 * i + 2)
    have b3 := bitAt_le_one rand (4 * i + 3)
    have hsmall : mod_q ((((bitAt rand (4 * i) + (bitAt rand (4 * i + 1) + 0) : Nat)) : Int) -
        (((bitAt rand (4 * i + 2) + (bitAt rand (4 * i + 3) + 0) : Nat)) : Int)) =
        (((bitAt rand (4 * i) + (bitAt rand (4 * i + 1) + 0) : Nat)) : Int) -
        (((bitAt rand (4 * i + 2) + (bitAt rand (4 * i + 3) + 0) : Nat)) : Int) := by
      apply mod_q_small <;> push_cast <;> omega
    rw [hcb, hsmall]
    refine ⟨by push_cast; ring, by push_cast; omega, by push_cast; omega⟩

/-- Witness for C7: the amended theorem applied to the all-zero buffer. -/
theorem C7_cbd_w :
    (cbd_sample ETA1 zeroBuf).length = N ∧ -2 ≤ (cbd_sample ETA1 zeroBuf).getD 0 0 :=
  ⟨(C7_cbd zeroBuf (by decide)).1, ((C7_cbd zeroBuf (by decide)).2 0 (by decide)).2.1⟩

/-! ### Claim C8 -/

/-- Claim C8 counterexample: `compress` on a 1-entry list returns a
1-entry result — no failure is signalled on a wrong-length input, the
output is silently sized to the input. -/
theorem C8_cex :
    compress [(0 : Int)] 4 = [(0 : Int)] ∧ ¬((compress [(0 : Int)] 4).length = N) := by decide

theorem enc_length : ∀ m : List Nat, (encode_message m).length = 8 * m.length := by
  intro m
  induction m with
  | nil => rfl
  | cons b t ih =>
    simp only [encode_message, List.flatMap_cons] at ih ⊢
    simp only [List.length_append, List.length_map, List.length_range, ih, List.length_cons]
    ring

/-- Claim C8 (amended): only `poly_add`, `poly_sub` and `decode_message`
fail fast (an index error, modelled as `none`) on inputs with fewer than
256 entries; `compress`, `decompress` and `encode_message` accept
wrong-length inputs and silently return an output sized to the input,
and `poly_add`/`poly_sub` silently ignore entries beyond the first 256
of over-long inputs. -/
theorem C8_failfast :
    (∀ a b : List Int, a.length < N ∨ b.length < N → poly_add a b = none) ∧
    (∀ a b : List Int, a.length < N ∨ b.length < N → poly_sub a b = none) ∧
    (∀ p : List Int, p.length < N → decode_message p = none) ∧
    (∀ (p : List Int) (d : Nat), (compress p d).length = p.length) ∧
    (∀ (p : List Int) (d : Nat), (decompress p d).length = p.length) ∧
    (∀ m : List Nat, (encode_message m).length = 8 * m.length) ∧
    (∀ a b : List Int, N ≤ a.length → N ≤ b.length →
      poly_add a b = poly_add (a.take N) (b.take N)) := by
  refine ⟨?_, ?_, ?_, ?_, ?_, enc_length, ?_⟩
  · intro a b h
    unfold poly_add
    rw [if_neg]
    omega
  · intro a b h
    unfold poly_sub
    rw [if_neg]
    omega
  · intro p h
    unfold decode_message
    rw [if_neg]
    omega
  · intro p d; simp [compress]
  · intro p d; simp [decompress]
  · intro a b ha hb
    unfold poly_add
    rw [if_pos ⟨ha, hb⟩, if_pos (by constructor <;> simp <;> omega)]
    simp [List.take_take]

/-- Witness for C8: the amended theorem applied at concrete wrong-length
and over-long inputs. -/
theorem C8_failfast_w :
    poly_add [] [] = none ∧
    decode_message [(0 : Int)] = none ∧
    poly_add (List.replicate 300 (0 : Int)) (List.replicate 300 0) =
      poly_add ((List.replicate 300 (0 : Int)).take N) ((List.replicate 300 (0 : Int)).take N) :=
  ⟨C8_failfast.1 [] [] (by decide), C8_failfast.2.2.1 [(0 : Int)] (by decide),
    C8_failfast.2.2.2.2.2.2 (List.replicate 300 0) (List.replicate 300 0) (by decide) (by decide)⟩

/-! ### Claim C10 -/

/-- Claim C10: `decode_message` depends on the integer representative, not
the residue class: 1665 and -1664 are congruent mod q but decode to
different bits; every negative coefficient decodes to bit 0 (even when,
as for -1664, its class 1665 is within q/4 of q/2); and `poly_sub` — whose
output decapsulate feeds into `decode_message` — does return such negative
centered coefficients. -/
theorem C10_representative :
    ((1665 : Int) % (Q : Int) = (-1664 : Int) % (Q : Int) ∧
      decodeBit 1665 = 1 ∧ decodeBit (-1664) = 0) ∧
    (∀ c : Int, c < 0 → decodeBit c = 0) ∧
    poly_sub zeroP (encode_message (List.replicate 32 255)) =
      some (List.replicate 256 (-1664)) := by
  refine ⟨by decide, ?_, by decide⟩
  intro c hc
  unfold decodeBit
  rw [if_neg]
  intro h
  have hq2 : (Q : Int) / 2 = 1664 := rfl
  have hq4 : Q / 4 = 832 := rfl
  rw [hq2, hq4] at h
  omega

/-- Witness for C10: the negative-coefficient clause at `c = -7`. -/
theorem C10_representative_w : decodeBit (-7) = 0 :=
  C10_representative.2.1 (-7) (by decide)

/-! ### Further indexing helpers -/

theorem getD_map_lt {α β : Type} :
    ∀ (l : List α) (f : α → β) (i : Nat) (d : β) (dd : α),
      i < l.length → (l.map f).getD i d = f (l.getD i dd) := by
  intro l
  induction l with
  | nil => intro f i d dd h; simp at h
  | cons a t ih =>
    intro f i d dd h
    cases i with
    | zero => rfl
    | succ n =>
      simp only [List.map_cons, List.getD_cons_succ]
      exact ih f n d dd (by simpa using h)

theorem getD_mem {α : Type} :
    ∀ (l : List α) (i : Nat) (d : α), i < l.length → l.getD i d ∈ l := by
  intro l
  induction l with
  | nil => intro i d h; simp at h
  | cons a t ih =>
    intro i d h
    cases i with
    | zero => simp
    | succ n => exact List.mem_cons_of_mem a (ih n d (by simpa using h))

theorem getD_ge {α : Type} :
    ∀ (l : List α) (i : Nat) (d : α), l.length ≤ i → l.getD i d = d := by
  intro l
  induction l with
  | nil => intro i d _; rfl
  | cons a t ih =>
    intro i d h
    cases i with
    | zero => simp at h
    | succ n => exact ih n d (by simpa using h)

/-! ### Claim C3 -/

/-- Claim C3 counterexample: at `p = [3300] * 256` and `d = 4`,
`compress` wraps around (`round(16 * 3300 / 3329) = 16 ≡ 0 (mod 16)`),
`decompress` returns 0, and the plain coefficient difference is 3300,
far above `ceil(q / 2^5) = 105`. -/
theorem C3_cex :
    decompress (compress (List.replicate 256 (3300 : Int)) 4) 4 = List.replicate 256 0 ∧
    ¬(((List.replicate 256 (3300 : Int)).getD 0 0 -
        (decompress (compress (List.replicate 256 (3300 : Int)) 4) 4).getD 0 0).natAbs ≤ 105) := by
  decide

theorem cd4chunk0 : ∀ k : Nat, k < 700 →
    (mod_q (rndHE ((3329 : Int) * (rndHE ((16 : Int) * (k : Nat)) 3329 % 16)) 16 -
      ((k : Nat) : Int))).natAbs ≤ 105 := by decide

theorem cd4chunk1 : ∀ k : Nat, k < 700 →
    (mod_q (rndHE ((3329 : Int) * (rndHE ((16 : Int) * ((700 + k) : Nat)) 3329 % 16)) 16 -
      (((700 + k) : Nat) : Int))).natAbs ≤ 105 := by decide

theorem cd4chunk2 : ∀ k : Nat, k < 700 →
    (mod_q (rndHE ((3329 : Int) * (rndHE ((16 : Int) * ((1400 + k) : Nat)) 3329 % 16)) 16 -
      (((1400 + k) : Nat) : Int))).natAbs ≤ 105 := by decide

theorem cd4chunk3 : ∀ k : Nat, k < 700 →
    (mod_q (rndHE ((3329 : Int) * (rndHE ((16 : Int) * ((2100 + k) : Nat)) 3329 % 16)) 16 -
      (((2100 + k) : Nat) : Int))).natAbs ≤ 105 := by decide

theorem cd4chunk4 : ∀ k : Nat, k < 529 →
    (mod_q (rndHE ((3329 : Int) * (rndHE ((16 : Int) * ((2800 + k) : Nat)) 3329 % 16)) 16 -
      (((2800 + k) : Nat) : Int))).natAbs ≤ 105 := by decide

theorem cdBound4Nat : ∀ n : Nat, n < 3329 →
    (mod_q (rndHE ((3329 : Int) * (rndHE ((16 : Int) * (n : Int)) 3329 % 16)) 16 -
      (n : Int))).natAbs ≤ 105 := by
  intro n hn
  by_cases h0 : n < 700
  · exact cd4chunk0 n h0
  by_cases h1 : n < 1400
  · have hres := cd4chunk1 (n - 700) (by omega)
    have he : 700 + (n - 700) = n := by omega
    rw [he] at hres
    exact hres
  by_cases h2 : n < 2100
  · have hres := cd4chunk2 (n - 1400) (by omega)
    have he : 1400 + (n - 1400) = n := by omega
    rw [he] at hres
    exact hres
  by_cases h3 : n < 2800
  · have hres := cd4chunk3 (n - 2100) (by omega)
    have he : 2100 + (n - 2100) = n := by omega
    rw [he] at hres
    exact hres
  · have hres := cd4chunk4 (n - 2800) (by omega)
    have he : 2800 + (n - 2800) = n := by omega
    rw [he] at hres
    exact hres

theorem cd10chunk0 : ∀ k : Nat, k < 700 →
    (mod_q (rndHE ((3329 : Int) * (rndHE ((1024 : Int) * (k : Nat)) 3329 % 1024)) 1024 -
      ((k : Nat) : Int))).natAbs ≤ 2 := by decide

theorem cd10chunk1 : ∀ k : Nat, k < 700 →
    (mod_q (rndHE ((3329 : Int) * (rndHE ((1024 : Int) * ((700 + k) : Nat)) 3329 % 1024)) 1024 -
      (((700 + k) : Nat) : Int))).natAbs ≤ 2 := by decide

theorem cd10chunk2 : ∀ k : Nat, k < 700 →
    (mod_q (rndHE ((3329 : Int) * (rndHE ((1024 : Int) * ((1400 + k) : Nat)) 3329 % 1024)) 1024 -
      (((1400 + k) : Nat) : Int))).natAbs ≤ 2 := by decide

theorem cd10chunk3 : ∀ k : Nat, k < 700 →
    (mod_q (rndHE ((3329 : Int) * (rndHE ((1024 : Int) * ((2100 + k) : Nat)) 3329 % 1024)) 1024 -
      (((2100 + k) : Nat) : Int))).natAbs ≤ 2 := by decide

theorem cd10chunk4 : ∀ k : Nat, k < 529 →
    (mod_q (rndHE ((3329 : Int) * (rndHE ((1024 : Int) * ((2800 + k) : Nat)) 3329 % 1024)) 1024 -
      (((2800 + k) : Nat) : Int))).natAbs ≤ 2 := by decide

theorem cdBound10Nat : ∀ n : Nat, n < 3329 →
    (mod_q (rndHE ((3329 : Int) * (rndHE ((1024 : Int) * (n : Int)) 3329 % 1024)) 1024 -
      (n : Int))).natAbs ≤ 2 := by
  intro n hn
  by_cases h0 : n < 700
  · exact cd10chunk0 n h0
  by_cases h1 : n < 1400
  · have hres := cd10chunk1 (n - 700) (by omega)
    have he : 700 + (n - 700) = n := by omega
    rw [he] at hres
    exact hres
  by_cases h2 : n < 2100
  · have hres := cd10chunk2 (n - 1400) (by omega)
    have he : 1400 + (n - 1400) = n := by omega
    rw [he] at hres
    exact hres
  by_cases h3 : n < 2800
  · have hres := cd10chunk3 (n - 2100) (by omega)
    have he : 2100 + (n - 2100) = n := by omega
    rw [he] at hres
    exact hres
  · have hres := cd10chunk4 (n - 2800) (by omega)
    have he : 2800 + (n - 2800) = n := by omega
    rw [he] at hres
    exact hres

theorem cdBound (d : Nat) (hd : d = 4 ∨ d = 10) (x : Int) (h0 : 0 ≤ x) (h1 : x < (Q : Int)) :
    (mod_q (rndHE ((Q : Int) * (rndHE ((2 : Int) ^ d * x) (Q : Int) % (2 : Int) ^ d))
        ((2 : Int) ^ d) - x)).natAbs ≤ (Q + 2 ^ (d + 1) - 1) / 2 ^ (d + 1) := by
  lift x to Nat using h0 with n
  have hn : n < 3329 := by exact_mod_cast h1
  rcases hd with rfl | rfl
  · exact cdBound4Nat n hn
  · exact cdBound10Nat n hn

/-- Claim C3 (amended): for a 256-coefficient polynomial with entries in
[0, q) and d in {4, 10}, each coefficient of
`decompress(compress(p, d), d)` differs from the corresponding coefficient
of p by at most `ceil(q / 2^(d+1))` **measured modulo q** (centered
representative of the difference).  The plain integer difference can reach
q - 29 because `compress` reduces the rounded value mod 2^d (wrap-around
at coefficients near q), as the counterexample shows. -/
theorem C3_bound :
    ∀ (p : List Int) (d : Nat), (d = 4 ∨ d = 10) → p.length = N →
      (∀ c ∈ p, 0 ≤ c ∧ c < (Q : Int)) →
      ∀ i : Nat,
        (mod_q ((decompress (compress p d) d).getD i 0 - p.getD i 0)).natAbs ≤
          (Q + 2 ^ (d + 1) - 1) / 2 ^ (d + 1) := by
  intro p d hd _ hrange i
  have hmap : decompress (compress p d) d = p.map (fun x =>
      rndHE ((Q : Int) * (rndHE ((2 : Int) ^ d * x) (Q : Int) % (2 : Int) ^ d))
        ((2 : Int) ^ d)) := by
    simp only [compress, decompress, List.map_map]
    rfl
  by_cases hi : i < p.length
  · rw [hmap, getD_map_lt p _ i 0 0 hi]
    exact cdBound d hd (p.getD i 0) (hrange _ (getD_mem p i 0 hi)).1
      (hrange _ (getD_mem p i 0 hi)).2
  · have h1 : (decompress (compress p d) d).getD i 0 = 0 := by
      apply getD_ge
      rw [hmap, List.length_map]
      omega
    have h2 : p.getD i 0 = 0 := getD_ge p i 0 (by omega)
    rw [h1, h2]
    show (mod_q 0).natAbs ≤ _
    have : (mod_q 0).natAbs = 0 := by decide
    rw [this]
    exact Nat.zero_le _

/-- Witness for C3: the amended theorem applied at `p = [100] * 256`,
`d = 4`, coefficient 0. -/
theorem C3_bound_w :
    (mod_q ((decompress (compress (List.replicate 256 (100 : Int)) 4) 4).getD 0 0 -
      (List.replicate 256 (100 : Int)).getD 0 0)).natAbs ≤ (Q + 2 ^ 5 - 1) / 2 ^ 5 :=
  C3_bound (List.replicate 256 100) 4 (Or.inl rfl) (by decide)
    (fun c hc => by rw [List.eq_of_mem_replicate hc]; decide) 0

/-! ### Claim C4 -/

theorem enc_cons (b : Nat) (t : List Nat) :
    encode_message (b :: t) =
      ((List.range 8).map (fun i => (((b >>> i) &&& 1 : Nat) : Int) * ((Q : Int) / 2))) ++
        encode_message t := by
  simp [encode_message]

theorem enc_getD :
    ∀ (m : List Nat) (k j : Nat), j < 8 → k < m.length →
      (encode_message m).getD (8 * k + j) 0 =
        (((m.getD k 0 >>> j) &&& 1 : Nat) : Int) * ((Q : Int) / 2) := by
  intro m
  induction m with
  | nil => intro k j _ hk; simp at hk
  | cons b t ih =>
    intro k j hj hk
    rw [enc_cons]
    cases k with
    | zero =>
      have hidx : 8 * 0 + j = j := by omega
      rw [hidx, getD_append_lt _ _ _ _ (by simp; omega), getD_rmap _ 8 j 0 hj]
      rfl
    | succ n =>
      have hlen : ((List.range 8).map
          (fun i => (((b >>> i) &&& 1 : Nat) : Int) * ((Q : Int) / 2))).length = 8 := by simp
      rw [getD_append_ge _ _ _ _ (by rw [hlen]; omega), hlen]
      have hidx : 8 * (n + 1) + j - 8 = 8 * n + j := by omega
      rw [hidx, ih n j hj (by simpa using hk)]
      rfl

theorem decByte_congr :
    ∀ (p1 : List Int) (k1 : Nat) (p2 : List Int) (k2 : Nat),
      (∀ j, j < 8 → p1.getD (8 * k1 + j) 0 = p2.getD (8 * k2 + j) 0) →
      decByte p1 k1 = decByte p2 k2 := by
  intro p1 k1 p2 k2 h
  unfold decByte
  rw [show List.range 8 = [0, 1, 2, 3, 4, 5, 6, 7] from rfl]
  simp only [List.foldl_cons, List.foldl_nil]
  rw [h 0 (by omega), h 1 (by omega), h 2 (by omega), h 3 (by omega), h 4 (by omega),
    h 5 (by omega), h 6 (by omega), h 7 (by omega)]

theorem decByte_enc_single : ∀ b : Nat, b < 256 → decByte (encode_message [b]) 0 = b := by
  decide

/-- Claim C4: for every 32-byte message (bytes below 256),
`decode_message (encode_message m) = m` — the noiseless round trip through
the bit-to-coefficient encoding (LSB-first, coefficient `bit * (q // 2)`)
and the threshold test `|c - q // 2| < q // 4`. -/
theorem C4_roundtrip :
    ∀ m : List Nat, m.length = 32 → (∀ b ∈ m, b < 256) →
      decode_message (encode_message m) = some m := by
  intro m hlen hbytes
  unfold decode_message
  rw [if_pos (by rw [enc_length m, hlen]; decide)]
  congr 1
  have hN8 : N / 8 = 32 := rfl
  apply ext_getD _ _ 0
  · simp [hN8, hlen]
  · intro k hk
    have hk32 : k < 32 := by
      simpa [hN8] using hk
    rw [getD_rmap _ (N / 8) k 0 (by omega)]
    have hb : m.getD k 0 < 256 := hbytes _ (getD_mem m k 0 (by omega))
    have hcongr : decByte (encode_message m) k = decByte (encode_message [m.getD k 0]) 0 := by
      apply decByte_congr
      intro j hj
      rw [enc_getD m k j hj (by omega), enc_getD [m.getD k 0] 0 j hj (by simp)]
      rfl
    rw [hcongr, decByte_enc_single _ hb]

/-- Witness for C4: the round trip at the all-zero message. -/
theorem C4_roundtrip_w :
    decode_message (encode_message (List.replicate 32 0)) = some (List.replicate 32 0) :=
  C4_roundtrip _ (by decide) (fun b hb => by rw [List.eq_of_mem_replicate hb]; decide)

/-! ### Claim C6 -/

theorem usPush1_mem (poly : List Int) (d : Nat) :
    ∀ c ∈ usPush1 poly d, c ∈ poly ∨ (c = (d : Int) ∧ d < Q) := by
  intro c hc
  by_cases hq : d < Q
  · rw [usPush1, if_pos hq] at hc
    rcases List.mem_append.mp hc with h | h
    · exact Or.inl h
    · simp only [List.mem_singleton] at h
      exact Or.inr ⟨h, hq⟩
  · rw [usPush1, if_neg hq] at hc
    exact Or.inl hc

theorem usPush2_mem (poly : List Int) (d : Nat) :
    ∀ c ∈ usPush2 poly d, c ∈ poly ∨ (c = (d : Int) ∧ d < Q) := by
  intro c hc
  by_cases hq : poly.length < N ∧ d < Q
  · rw [usPush2, if_pos hq] at hc
    rcases List.mem_append.mp hc with h | h
    · exact Or.inl h
    · simp only [List.mem_singleton] at h
      exact Or.inr ⟨h, hq.2⟩
  · rw [usPush2, if_neg hq] at hc
    exact Or.inl hc

theorem usLoop_some (xof : List Nat → Nat → List Nat) (input : List Nat)
    (hx : ∀ inp n, (xof inp n).length = n) :
    ∀ (fuel : Nat) (poly : List Int) (ctr : Nat) (out : List Int),
      (∀ c ∈ poly, 0 ≤ c ∧ c < (Q : Int)) →
      usLoop xof input fuel poly ctr = some out →
      out.length = N ∧ ∀ c ∈ out, 0 ≤ c ∧ c < (Q : Int) := by
  intro fuel
  induction fuel with
  | zero =>
    intro poly ctr out _ h
    exact absurd h (by simp [usLoop])
  | succ f ih =>
    intro poly ctr out hinv h
    simp only [usLoop] at h
    by_cases hN : N ≤ poly.length
    · rw [if_pos hN, Option.some_inj] at h
      subst h
      refine ⟨by rw [List.length_take]; omega, fun c hc => hinv c (List.take_subset _ _ hc)⟩
    · rw [if_neg hN] at h
      have hsl : (xofSlice xof input ctr).length = 3 := by
        simp only [xofSlice, List.length_take, List.length_drop, hx]
        omega
      rw [if_neg (by omega)] at h
      apply ih _ _ out _ h
      intro c hc
      rcases usPush2_mem _ _ c hc with hc2 | ⟨hceq, hd⟩
      · rcases usPush1_mem _ _ c hc2 with hc3 | ⟨hceq, hd⟩
        · exact hinv c hc3
        · subst hceq
          exact ⟨Int.natCast_nonneg _, by exact_mod_cast hd⟩
      · subst hceq
        exact ⟨Int.natCast_nonneg _, by exact_mod_cast hd⟩

/-- Claim C6: whenever the XOF oracle honours its length contract and the
rejection-sampling loop finishes (some fuel suffices), `uniform_sample`
returns exactly 256 coefficients, each accepted 12-bit value being
strictly below q, hence every returned coefficient lies in [0, q). -/
theorem C6_uniform :
    ∀ xof : List Nat → Nat → List Nat, (∀ inp n, (xof inp n).length = n) →
      ∀ (fuel : Nat) (seed : List Nat) (i j : Nat) (out : List Int),
        uniform_sample xof fuel seed i j = some out →
        out.length = N ∧ ∀ c ∈ out, 0 ≤ c ∧ c < (Q : Int) := by
  intro xof hx fuel seed i j out h
  exact usLoop_some xof (seed ++ [i, j]) hx fuel [] 0 out (by simp) h

/-- Witness for C6: the all-zero XOF oracle yields the zero polynomial,
with the theorem giving its length. -/
theorem C6_uniform_w : zeroP.length = N :=
  (C6_uniform xof0 (fun _ _ => by simp [xof0]) 130 cexRho 0 0 zeroP
    (sample_zeroStream xof0 cexRho 0 0 (fun n => rfl))).1

/-! ### Claim C9 -/

theorem seqOpt_length {α : Type} :
    ∀ (l : List (Option α)) (out : List α), seqOpt l = some out → out.length = l.length := by
  intro l
  induction l with
  | nil =>
    intro out h
    simp only [seqOpt, Option.some_inj] at h
    subst h
    rfl
  | cons o rest ih =>
    intro out h
    cases o with
    | none => simp [seqOpt] at h
    | some x =>
      simp only [seqOpt] at h
      rw [Option.map_eq_some'] at h
      obtain ⟨xs, hre, heq⟩ := h
      subst heq
      simp [ih xs hre]

theorem seqOpt_mem {α : Type} :
    ∀ (l : List (Option α)) (out : List α), seqOpt l = some out → ∀ x ∈ out, some x ∈ l := by
  intro l
  induction l with
  | nil =>
    intro out h x hx
    simp only [seqOpt, Option.some_inj] at h
    subst h
    simp at hx
  | cons o rest ih =>
    intro out h x hx
    cases o with
    | none => simp [seqOpt] at h
    | some y =>
      simp only [seqOpt] at h
      rw [Option.map_eq_some'] at h
      obtain ⟨xs, hre, heq⟩ := h
      subst heq
      rcases List.mem_cons.mp hx with h1 | h1
      · subst h1; exact List.mem_cons_self _ _
      · exact List.mem_cons_of_mem _ (ih xs hre x h1)

theorem poly_add_some_length :
    ∀ a b out : List Int, poly_add a b = some out → out.length = N := by
  intro a b out h
  by_cases hc : N ≤ a.length ∧ N ≤ b.length
  · rw [poly_add, if_pos hc, Option.some_inj] at h
    subst h
    simp only [List.length_zipWith, List.length_take]
    omega
  · rw [poly_add, if_neg hc] at h
    exact absurd h (by simp)

theorem poly_sub_some_length :
    ∀ a b out : List Int, poly_sub a b = some out → out.length = N := by
  intro a b out h
  by_cases hc : N ≤ a.length ∧ N ≤ b.length
  · rw [poly_sub, if_pos hc, Option.some_inj] at h
    subst h
    simp only [List.length_zipWith, List.length_take]
    omega
  · rw [poly_sub, if_neg hc] at h
    exact absurd h (by simp)

theorem accPolys_some :
    ∀ (ps : List (List Int)) (acc out : List Int),
      acc.length = N → accPolys ps acc = some out → out.length = N := by
  intro ps
  induction ps with
  | nil =>
    intro acc out ha h
    simp only [accPolys, Option.some_inj] at h
    subst h
    exact ha
  | cons p rest ih =>
    intro acc out _ h
    simp only [accPolys] at h
    cases hpa : poly_add acc p with
    | none => rw [hpa] at h; simp at h
    | some acc2 =>
      rw [hpa] at h
      exact ih acc2 out (poly_add_some_length _ _ _ hpa) h

theorem norm256_length (p : List Int) : (norm256 p).length = N := by
  simp only [norm256, List.length_take, List.length_append, List.length_replicate]
  omega

theorem rotNeg_length (i : Nat) (b : List Int) (hb : b.length = N) :
    (rotNeg i b).length = N := by
  simp only [rotNeg, List.length_append, List.length_map, List.length_drop, List.length_take]
  omega

theorem mulGo_length :
    ∀ (rest : List Int) (b acc : List Int) (i : Nat), b.length = N → acc.length = N →
      (mulGo b acc i rest).length = N := by
  intro rest
  induction rest with
  | nil =>
    intro b acc i _ ha
    simp [mulGo, ha]
  | cons x r ih =>
    intro b acc i hb ha
    simp only [mulGo]
    apply ih _ _ _ hb
    by_cases hx : x = 0
    · rw [if_pos hx]; exact ha
    · rw [if_neg hx]
      rw [List.length_zipWith, rotNeg_length i b hb, ha]
      exact Nat.min_self N

theorem poly_mul_length (a b : List Int) : (poly_mul a b).length = N :=
  mulGo_length (norm256 a) (norm256 b) (List.replicate N 0) 0 (norm256_length b)
    (List.length_replicate N 0)

theorem mvm_shape :
    ∀ (A : List (List (List Int))) (v out : List (List Int)),
      matrix_vector_mul A v = some out →
      out.length = v.length ∧ ∀ p ∈ out, p.length = N := by
  intro A v out h
  rw [matrix_vector_mul] at h
  constructor
  · have := seqOpt_length _ _ h
    simpa using this
  · intro p hp
    have hsome := seqOpt_mem _ _ h p hp
    rcases List.mem_map.mp hsome with ⟨i, _, hmapeq⟩
    exact accPolys_some _ _ _ (List.length_replicate N 0) hmapeq

theorem vadd_shape :
    ∀ (v1 v2 out : List (List Int)), vector_add v1 v2 = some out →
      out.length = v1.length ∧ ∀ p ∈ out, p.length = N := by
  intro v1 v2 out h
  rw [vector_add] at h
  constructor
  · have := seqOpt_length _ _ h
    simpa using this
  · intro p hp
    have hsome := seqOpt_mem _ _ h p hp
    rcases List.mem_map.mp hsome with ⟨i, _, hmapeq⟩
    exact poly_add_some_length _ _ _ hmapeq

theorem vdot_shape :
    ∀ (v1 v2 : List (List Int)) (out : List Int), vector_dot v1 v2 = some out →
      out.length = N := by
  intro v1 v2 out h
  rw [vector_dot] at h
  exact accPolys_some _ _ _ (List.length_replicate N 0) h

theorem cbd_length (eta : Nat) (rand : List Nat) : (cbd_sample eta rand).length = N := by
  simp [cbd_sample]

theorem sampleVec_length (eta : Nat) (bufs : List (List Nat)) :
    (sampleVec eta bufs).length = K := by
  simp [sampleVec]

theorem sampleVec_mem (eta : Nat) (bufs : List (List Nat)) :
    ∀ p ∈ sampleVec eta bufs, p.length = N := by
  intro p hp
  rcases List.mem_map.mp hp with ⟨i, _, heq⟩
  rw [← heq]
  exact cbd_length _ _

theorem keygen_shape :
    ∀ (xof : List Nat → Nat → List Nat) (fuel : Nat) (rho : List Nat)
      (randS randE : List (List Nat)) (pk : PubKey) (sk : SecKey),
      keygen xof fuel rho randS randE = some (pk, sk) →
      pk.t.length = K ∧ (∀ p ∈ pk.t, p.length = N) ∧
        sk.s.length = K ∧ (∀ p ∈ sk.s, p.length = N) := by
  intro xof fuel rho randS randE pk sk h
  rw [keygen] at h
  rw [Option.bind_eq_some] at h
  obtain ⟨A, _, h⟩ := h
  rw [Option.bind_eq_some] at h
  obtain ⟨As, hAs, h⟩ := h
  rw [Option.bind_eq_some] at h
  obtain ⟨t, ht, h⟩ := h
  rw [Option.some_inj] at h
  injection h with h1 h2
  subst h1
  subst h2
  have hAsShape := mvm_shape _ _ _ hAs
  have htShape := vadd_shape _ _ _ ht
  refine ⟨?_, htShape.2, sampleVec_length _ _, sampleVec_mem _ _⟩
  rw [htShape.1, hAsShape.1, sampleVec_length]

theorem encaps_shape :
    ∀ (xof : List Nat → Nat → List Nat) (hash : List Nat → List Nat) (fuel : Nat)
      (pk : PubKey) (m : List Nat) (randR randE1 : List (List Nat)) (randE2 : List Nat)
      (ct : Ciphertext) (ss : List Nat),
      encapsulate xof hash fuel pk m randR randE1 randE2 = some (ct, ss) →
      ct.u.length = K ∧ (∀ p ∈ ct.u, p.length = N) ∧ ct.v.length = N := by
  intro xof hash fuel pk m randR randE1 randE2 ct ss h
  rw [encapsulate] at h
  rw [Option.bind_eq_some] at h
  obtain ⟨A, _, h⟩ := h
  rw [Option.bind_eq_some] at h
  obtain ⟨Atr, hAtr, h⟩ := h
  rw [Option.bind_eq_some] at h
  obtain ⟨u, hu, h⟩ := h
  rw [Option.bind_eq_some] at h
  obtain ⟨tdotr, _, h⟩ := h
  rw [Option.bind_eq_some] at h
  obtain ⟨v1, _, h⟩ := h
  rw [Option.bind_eq_some] at h
  obtain ⟨v, hv, h⟩ := h
  rw [Option.some_inj] at h
  injection h with h1 h2
  subst h1
  have hAtrShape := mvm_shape _ _ _ hAtr
  have huShape := vadd_shape _ _ _ hu
  refine ⟨?_, ?_, ?_⟩
  · show (u.map (fun ui => compress ui DU)).length = K
    rw [List.length_map, huShape.1, hAtrShape.1, sampleVec_length]
  · show ∀ p ∈ u.map (fun ui => compress ui DU), p.length = N
    intro p hp
    rcases List.mem_map.mp hp with ⟨ui, hui, heq⟩
    rw [← heq]
    show (ui.map _).length = N
    rw [List.length_map]
    exact huShape.2 ui hui
  · show (compress v DV).length = N
    rw [compress, List.length_map]
    exact poly_add_some_length _ _ _ hv

/-- Claim C9: shape invariance — every polynomial produced by the core
operations (`uniform_sample` under the XOF length contract,
`cbd_sample`, `poly_add`, `poly_sub`, the modelled ring product,
`compress`/`decompress` on 256-entry inputs, `encode_message` on 32-byte
messages, matrix-vector and dot products) has exactly N = 256 entries,
and every vector produced (t and s of `keygen`, u of `encapsulate`) has
exactly K = 3 polynomials; the v of `encapsulate` has 256 entries. -/
theorem C9_shapes :
    (∀ xof : List Nat → Nat → List Nat, (∀ inp n, (xof inp n).length = n) →
      ∀ (fuel : Nat) (seed : List Nat) (i j : Nat) (out : List Int),
        uniform_sample xof fuel seed i j = some out → out.length = N) ∧
    (∀ (eta : Nat) (rand : List Nat), (cbd_sample eta rand).length = N) ∧
    (∀ a b out : List Int, poly_add a b = some out → out.length = N) ∧
    (∀ a b out : List Int, poly_sub a b = some out → out.length = N) ∧
    (∀ a b : List Int, (poly_mul a b).length = N) ∧
    (∀ (p : List Int) (d : Nat), p.length = N → (compress p d).length = N) ∧
    (∀ (p : List Int) (d : Nat), p.length = N → (decompress p d).length = N) ∧
    (∀ m : List Nat, m.length = 32 → (encode_message m).length = N) ∧
    (∀ (A : List (List (List Int))) (v out : List (List Int)),
      matrix_vector_mul A v = some out → out.length = v.length ∧ ∀ p ∈ out, p.length = N) ∧
    (∀ (v1 v2 : List (List Int)) (out : List Int),
      vector_dot v1 v2 = some out → out.length = N) ∧
    (∀ (xof : List Nat → Nat → List Nat) (fuel : Nat) (rho : List Nat)
      (randS randE : List (List Nat)) (pk : PubKey) (sk : SecKey),
      keygen xof fuel rho randS randE = some (pk, sk) →
      pk.t.length = K ∧ (∀ p ∈ pk.t, p.length = N) ∧
        sk.s.length = K ∧ (∀ p ∈ sk.s, p.length = N)) ∧
    (∀ (xof : List Nat → Nat → List Nat) (hash : List Nat → List Nat) (fuel : Nat)
      (pk : PubKey) (m : List Nat) (randR randE1 : List (List Nat)) (randE2 : List Nat)
      (ct : Ciphertext) (ss : List Nat),
      encapsulate xof hash fuel pk m randR randE1 randE2 = some (ct, ss) →
      ct.u.length = K ∧ (∀ p ∈ ct.u, p.length = N) ∧ ct.v.length = N) := by
  refine ⟨?_, cbd_length, poly_add_some_length, poly_sub_some_length, poly_mul_length,
    ?_, ?_, ?_, mvm_shape, vdot_shape, keygen_shape, encaps_shape⟩
  · intro xof hx fuel seed i j out h
    exact (usLoop_some xof (seed ++ [i, j]) hx fuel [] 0 out (by simp) h).1
  · intro p d hp
    rw [compress, List.length_map, hp]
  · intro p d hp
    rw [decompress, List.length_map, hp]
  · intro m hm
    rw [enc_length, hm]
    rfl

/-- Witness for C9: the keygen clause at the concrete run of C1, and the
uniform-sample clause at the all-zero oracle. -/
theorem C9_shapes_w : cexPk.t.length = K ∧ zeroP.length = N :=
  ⟨(C9_shapes.2.2.2.2.2.2.2.2.2.2.1 cexXof 130 cexRho cexRandS cexRandE cexPk cexSk hKeygen).1,
    C9_shapes.1 xof0 (fun _ _ => by simp [xof0]) 130 cexRho 0 0 zeroP
      (sample_zeroStream xof0 cexRho 0 0 (fun n => rfl))⟩

end Kyber768
